import Mathlib

/-!
Shallow embedding of the 3D Bernstein tensor-polynomial family of
`Ostap/Bernstein3D.h` (classes `Bernstein3D`, `Bernstein3DSym`,
`Bernstein3DMix`, `Positive3D`, `Positive3DSym`, `Positive3DMix`).

Machine doubles are modelled as rationals; `unsigned int` arithmetic is
modelled as natural-number arithmetic reduced modulo 2^32 at every C++
operation on an `unsigned int` value, with `(unsigned int)(-1)` becoming
the sentinel `2^32 - 1`.  Coefficient vectors are modelled as total
functions from flat slot numbers to rationals together with the slot
count; reads and writes go through the same bound checks as the C++
vector accesses.  Inline member functions are translated from the header;
member functions whose bodies live in a translation unit that is not part
of the source tree are modelled from the specification and say so in
their doc comments.
-/

namespace Ostap

/-- The modulus of the 32-bit `unsigned int` type used by the index maps. -/
def W : ℕ := 4294967296

/-- The sentinel produced by `(unsigned int)(-1)` in the index maps. -/
def sentinel : ℕ := W - 1

/-- Modelled from the spec (glossary): the degree-n Bernstein basis function
B_i_n(t) = C(n,i) t^i (1-t)^(n-i); the one-dimensional `Bernstein` class is
an external collaborator whose evaluation at a point of `[xmin,xmax]` is the
basis function taken at the affinely normalized coordinate. -/
def bernB (n i : ℕ) (t : ℚ) : ℚ := (n.choose i : ℚ) * t ^ i * (1 - t) ^ (n - i)

/-- Partition of unity for the Bernstein basis: the basis functions of a
fixed degree sum to one at every point. -/
theorem sum_bernB (n : ℕ) (t : ℚ) :
    ∑ i ∈ Finset.range (n + 1), bernB n i t = 1 := by
  have h := add_pow t (1 - t) n
  have ht : t + (1 - t) = 1 := by ring
  rw [ht, one_pow] at h
  calc ∑ i ∈ Finset.range (n + 1), bernB n i t
      = ∑ i ∈ Finset.range (n + 1), t ^ i * (1 - t) ^ (n - i) * (n.choose i : ℚ) := by
        refine Finset.sum_congr rfl fun i _ => ?_
        simp only [bernB]
        ring
    _ = 1 := h.symm

/-- The tensor `Bernstein3D`: degrees, domain box, flat coefficient vector
(modelled as a total function plus the slot count `npars`). -/
structure Bernstein3D where
  nx : ℕ
  ny : ℕ
  nz : ℕ
  pars : ℕ → ℚ
  xmin : ℚ
  xmax : ℚ
  ymin : ℚ
  ymax : ℚ
  zmin : ℚ
  zmax : ℚ

namespace Bernstein3D

/-- Modelled from the spec: the constructor (whose body is not under the
source tree) sizes `m_pars` to `(nx+1)(ny+1)(nz+1)`, one slot per basis
triple. -/
def npars (b : Bernstein3D) : ℕ := (b.nx + 1) * (b.ny + 1) * (b.nz + 1)

/-- `Bernstein3D::index(l,m,n)` (inline in the header): out-of-range
components give the sentinel, otherwise the row-major flat index, computed
in 32-bit unsigned arithmetic. -/
def index (b : Bernstein3D) (l m n : ℕ) : ℕ :=
  if b.nx < l ∨ b.ny < m ∨ b.nz < n then sentinel
  else ((b.nz + 1) * (b.ny + 1) * l + (b.nz + 1) * m + n) % W

/-- `Bernstein3D::par(unsigned int k)` (inline): bound-checked read,
out-of-range reads give `0.0`. -/
def par (b : Bernstein3D) (k : ℕ) : ℚ := if k < b.npars then b.pars k else 0

/-- `Bernstein3D::par(l,m,n)` (inline): read through the index map. -/
def par3 (b : Bernstein3D) (l m n : ℕ) : ℚ := b.par (b.index l m n)

/-- Modelled from the spec: `Bernstein3D::setPar(unsigned int k, double)`
has its body outside the source tree; per the spec an in-range write stores
the value and reports success, an out-of-range write is a no-op reporting
failure. -/
def setPar (b : Bernstein3D) (k : ℕ) (v : ℚ) : Bernstein3D × Bool :=
  if k < b.npars then
    ({ b with pars := fun j => if j = k then v else b.pars j }, true)
  else (b, false)

/-- `Bernstein3D::setPar(l,m,n,value)` (inline in the header):
`k := index(l,m,n); return (k < m_pars.size()) && setPar(k, value)`,
with the short-circuit leaving the object untouched when the bound
check fails. -/
def setPar3 (b : Bernstein3D) (l m n : ℕ) (v : ℚ) : Bernstein3D × Bool :=
  if b.index l m n < b.npars then b.setPar (b.index l m n) v else (b, false)

/-- `Bernstein3D::x(tx)` (inline). -/
def x (b : Bernstein3D) (tx : ℚ) : ℚ := b.xmin + (b.xmax - b.xmin) * tx

/-- `Bernstein3D::y(ty)` (inline). -/
def y (b : Bernstein3D) (ty : ℚ) : ℚ := b.ymin + (b.ymax - b.ymin) * ty

/-- `Bernstein3D::z(tz)` (inline). -/
def z (b : Bernstein3D) (tz : ℚ) : ℚ := b.zmin + (b.zmax - b.zmin) * tz

/-- `Bernstein3D::tx(x)` (inline). -/
def tx (b : Bernstein3D) (xx : ℚ) : ℚ := (xx - b.xmin) / (b.xmax - b.xmin)

/-- `Bernstein3D::ty(y)` (inline). -/
def ty (b : Bernstein3D) (yy : ℚ) : ℚ := (yy - b.ymin) / (b.ymax - b.ymin)

/-- `Bernstein3D::tz(z)` (inline). -/
def tz (b : Bernstein3D) (zz : ℚ) : ℚ := (zz - b.zmin) / (b.zmax - b.zmin)

/-- `Bernstein3D::basicX(i,x)` (inline in the header), transcribed with its
guard exactly as written there: `(i > m_nx || x < m_xmin || x < m_xmax)`
yields `0.0`, otherwise the basic polynomial value `m_bx[i](x)`. -/
def basicX (b : Bernstein3D) (i : ℕ) (xx : ℚ) : ℚ :=
  if b.nx < i ∨ xx < b.xmin ∨ xx < b.xmax then 0 else bernB b.nx i (b.tx xx)

/-- Modelled from the spec (evaluation, section 4.2): the body of
`Bernstein3D::evaluate` is outside the source tree; per the spec it maps
each coordinate into the local basis, returns 0 out of the domain box, and
otherwise forms the coefficient-weighted triple sum of basis products over
the full basis-triple cube, each coefficient looked up through the packed
index. -/
def evaluate (b : Bernstein3D) (xx yy zz : ℚ) : ℚ :=
  if xx < b.xmin ∨ b.xmax < xx ∨ yy < b.ymin ∨ b.ymax < yy ∨
     zz < b.zmin ∨ b.zmax < zz then 0
  else
    ∑ i ∈ Finset.range (b.nx + 1), ∑ j ∈ Finset.range (b.ny + 1),
      ∑ k ∈ Finset.range (b.nz + 1),
        b.par3 i j k * bernB b.nx i (b.tx xx) * bernB b.ny j (b.ty yy) *
          bernB b.nz k (b.tz zz)

/-- Modelled from the spec (integration, section 4.4 and the header doc of
`integral()`): the body of `Bernstein3D::integral()` is outside the source
tree; per the spec the full-domain integral is the sum of the stored
coefficients, each weighted by the per-axis full-interval integral of its
basis triple, namely `(max-min)/(degree+1)` per axis. -/
def integralFull (b : Bernstein3D) : ℚ :=
  ∑ i ∈ Finset.range (b.nx + 1), ∑ j ∈ Finset.range (b.ny + 1),
    ∑ k ∈ Finset.range (b.nz + 1),
      b.par3 i j k * ((b.xmax - b.xmin) / (b.nx + 1)) *
        ((b.ymax - b.ymin) / (b.ny + 1)) * ((b.zmax - b.zmin) / (b.nz + 1))

/-- Modelled from the spec (section 4.3): `Bernstein3D::operator+=(a)` has
its body outside the source tree; per the spec it adds `a` divided by the
total number of basis triples to every stored coefficient. -/
def addConst (b : Bernstein3D) (a : ℚ) : Bernstein3D :=
  { b with pars := fun k => if k < b.npars then b.pars k + a / (b.npars : ℚ) else b.pars k }

end Bernstein3D

/-- Number of descending-order inversions of a triple: the termination
measure of the recursive index canonicalizations. -/
def inv3 (l m n : ℕ) : ℕ :=
  (if l < m then 1 else 0) + (if l < n then 1 else 0) + (if m < n then 1 else 0)

/-- Largest component of a triple. -/
def max3 (l m n : ℕ) : ℕ := max l (max m n)

/-- Smallest component of a triple. -/
def min3 (l m n : ℕ) : ℕ := min l (min m n)

/-- Middle component of a triple. -/
def mid3 (l m n : ℕ) : ℕ := l + m + n - max3 l m n - min3 l m n

/-- The fully symmetric tensor `Bernstein3DSym`: one shared degree, one
shared interval, packed coefficient vector. -/
structure Bernstein3DSym where
  n : ℕ
  pars : ℕ → ℚ
  xmin : ℚ
  xmax : ℚ

namespace Bernstein3DSym

/-- Modelled from the spec: the constructor (whose body is not under the
source tree) sizes `m_pars` to `(N+1)(N+2)(N+3)/6`, one slot per unordered
triple. -/
def npars (s : Bernstein3DSym) : ℕ := (s.n + 1) * (s.n + 2) * (s.n + 3) / 6

/-- The non-recursive branch of `Bernstein3DSym::index`: sentinel above the
degree, otherwise the tetrahedral-number formula, computed in 32-bit
unsigned arithmetic (the two inner products are reduced modulo 2^32 before
their exact divisions by 6 and 2, as the C++ operator order dictates). -/
def core (N l m n : ℕ) : ℕ :=
  if N < l then sentinel
  else (l * (l + 1) * (l + 2) % W / 6 + m * (m + 1) % W / 2 + n) % W

/-- `Bernstein3DSym::index(l,m,n)` (inline in the header): recursive
reordering into descending order, then the tetrahedral-number formula. -/
def index (s : Bernstein3DSym) (l m n : ℕ) : ℕ :=
  if l < m then s.index m l n
  else if m < n then s.index l n m
  else core s.n l m n
termination_by inv3 l m n
decreasing_by
  · unfold inv3
    split_ifs <;> omega
  · unfold inv3
    split_ifs <;> omega

/-- The recursive reordering of `Bernstein3DSym::index` computes the
tetrahedral formula of the descending rearrangement of its argument. -/
theorem index_eq_core (s : Bernstein3DSym) (l m n : ℕ) :
    s.index l m n = core s.n (max3 l m n) (mid3 l m n) (min3 l m n) := by
  induction l, m, n using Bernstein3DSym.index.induct s with
  | case1 l m n h ih =>
    rw [index]
    simp only [if_pos h]
    rw [ih]
    have e1 : max3 m l n = max3 l m n := by unfold max3; omega
    have e2 : min3 m l n = min3 l m n := by unfold min3; omega
    have e3 : mid3 m l n = mid3 l m n := by unfold mid3 max3 min3; omega
    rw [e1, e2, e3]
  | case2 l m n h1 h2 ih =>
    rw [index]
    simp only [if_neg h1, if_pos h2]
    rw [ih]
    have e1 : max3 l n m = max3 l m n := by unfold max3; omega
    have e2 : min3 l n m = min3 l m n := by unfold min3; omega
    have e3 : mid3 l n m = mid3 l m n := by unfold mid3 max3 min3; omega
    rw [e1, e2, e3]
  | case3 l m n h1 h2 =>
    rw [index]
    simp only [if_neg h1, if_neg h2]
    have e1 : max3 l m n = l := by unfold max3; omega
    have e2 : min3 l m n = n := by unfold min3; omega
    have e3 : mid3 l m n = m := by unfold mid3 max3 min3; omega
    rw [e1, e2, e3]

/-- `Bernstein3DSym::par(unsigned int k)` (inline). -/
def par (s : Bernstein3DSym) (k : ℕ) : ℚ := if k < s.npars then s.pars k else 0

/-- `Bernstein3DSym::par(l,m,n)` (inline). -/
def par3 (s : Bernstein3DSym) (l m n : ℕ) : ℚ := s.par (s.index l m n)

/-- Modelled from the spec: `Bernstein3DSym::setPar(unsigned int k, double)`
has its body outside the source tree; per the spec an in-range write stores
the value and reports success, an out-of-range write is a no-op reporting
failure. -/
def setPar (s : Bernstein3DSym) (k : ℕ) (v : ℚ) : Bernstein3DSym × Bool :=
  if k < s.npars then
    ({ s with pars := fun j => if j = k then v else s.pars j }, true)
  else (s, false)

/-- `Bernstein3DSym::setPar(l,m,n,value)` (inline in the header). -/
def setPar3 (s : Bernstein3DSym) (l m n : ℕ) (v : ℚ) : Bernstein3DSym × Bool :=
  if s.index l m n < s.npars then s.setPar (s.index l m n) v else (s, false)

/-- `Bernstein3DSym::x(tx)` (inline); `ymin`, `ymax`, `zmin`, `zmax` are
aliases of the x edges, so the y and z transforms coincide with this one. -/
def x (s : Bernstein3DSym) (tx : ℚ) : ℚ := s.xmin + (s.xmax - s.xmin) * tx

/-- `Bernstein3DSym::tx(x)` (inline). -/
def tx (s : Bernstein3DSym) (xx : ℚ) : ℚ := (xx - s.xmin) / (s.xmax - s.xmin)

/-- `Bernstein3DSym::basicX(i,x)` (inline in the header), transcribed with
its guard exactly as written there: `(i > nX() || x < xmin() || x < xmax())`
yields `0.0`, otherwise the basic polynomial value `m_b[i](x)`. -/
def basicX (s : Bernstein3DSym) (i : ℕ) (xx : ℚ) : ℚ :=
  if s.n < i ∨ xx < s.xmin ∨ xx < s.xmax then 0 else bernB s.n i (s.tx xx)

/-- Modelled from the spec (evaluation, section 4.2): the body of
`Bernstein3DSym::evaluate` is outside the source tree; per the spec it
iterates the full basis-triple cube and looks up each packed coefficient by
its canonicalized index. -/
def evaluate (s : Bernstein3DSym) (xx yy zz : ℚ) : ℚ :=
  if xx < s.xmin ∨ s.xmax < xx ∨ yy < s.xmin ∨ s.xmax < yy ∨
     zz < s.xmin ∨ s.xmax < zz then 0
  else
    ∑ i ∈ Finset.range (s.n + 1), ∑ j ∈ Finset.range (s.n + 1),
      ∑ k ∈ Finset.range (s.n + 1),
        s.par3 i j k * bernB s.n i (s.tx xx) * bernB s.n j (s.tx yy) *
          bernB s.n k (s.tx zz)

/-- Modelled from the spec (section 4.3): `Bernstein3DSym::operator+=(a)`
has its body outside the source tree; per the spec it adds `a` divided by
the total number of basis triples, here `(N+1)^3`, to every packed slot. -/
def addConst (s : Bernstein3DSym) (a : ℚ) : Bernstein3DSym :=
  { s with pars := fun k =>
      if k < s.npars then s.pars k + a / (((s.n + 1) ^ 3 : ℕ) : ℚ) else s.pars k }

end Bernstein3DSym

/-- The partially symmetric tensor `Bernstein3DMix`: a shared degree and
interval for the first two axes, separate degree and interval for the
third. -/
structure Bernstein3DMix where
  n : ℕ
  nz : ℕ
  pars : ℕ → ℚ
  xmin : ℚ
  xmax : ℚ
  zmin : ℚ
  zmax : ℚ

namespace Bernstein3DMix

/-- Modelled from the spec: the constructor (whose body is not under the
source tree) sizes `m_pars` to `(N+1)(N+2)/2 * (Nz+1)`. -/
def npars (s : Bernstein3DMix) : ℕ := (s.n + 1) * (s.n + 2) / 2 * (s.nz + 1)

/-- The non-recursive branch of `Bernstein3DMix::index`, computed in 32-bit
unsigned arithmetic. -/
def core (N Nz l m n : ℕ) : ℕ :=
  if N < l then sentinel
  else if Nz < n then sentinel
  else ((l * (l + 1) % W / 2 + m) % W * (Nz + 1) + n) % W

/-- `Bernstein3DMix::index(l,m,n)` (inline in the header): the first pair
is reordered into descending order, the third component is free. -/
def index (s : Bernstein3DMix) (l m n : ℕ) : ℕ :=
  if l < m then s.index m l n
  else core s.n s.nz l m n
termination_by (if l < m then 1 else 0)
decreasing_by
  split_ifs <;> omega

/-- The single reordering of `Bernstein3DMix::index` computes the packed
formula of the descending rearrangement of the first pair. -/
theorem mix_index_eq_core (s : Bernstein3DMix) (l m n : ℕ) :
    s.index l m n = core s.n s.nz (max l m) (min l m) n := by
  induction l, m, n using Bernstein3DMix.index.induct s with
  | case1 l m n h ih =>
    rw [index]
    simp only [if_pos h]
    rw [ih]
    have e1 : max m l = max l m := by omega
    have e2 : min m l = min l m := by omega
    rw [e1, e2]
  | case2 l m n h =>
    rw [index]
    simp only [if_neg h]
    have e1 : max l m = l := by omega
    have e2 : min l m = m := by omega
    rw [e1, e2]

/-- `Bernstein3DMix::par(unsigned int k)` (inline). -/
def par (s : Bernstein3DMix) (k : ℕ) : ℚ := if k < s.npars then s.pars k else 0

/-- `Bernstein3DMix::par(l,m,n)` (inline). -/
def par3 (s : Bernstein3DMix) (l m n : ℕ) : ℚ := s.par (s.index l m n)

/-- Modelled from the spec: `Bernstein3DMix::setPar(unsigned int k, double)`
has its body outside the source tree; per the spec an in-range write stores
the value and reports success, an out-of-range write is a no-op reporting
failure. -/
def setPar (s : Bernstein3DMix) (k : ℕ) (v : ℚ) : Bernstein3DMix × Bool :=
  if k < s.npars then
    ({ s with pars := fun j => if j = k then v else s.pars j }, true)
  else (s, false)

/-- Modelled from the spec: `Bernstein3DMix::setPar(l,m,n,value)` is only
declared in the header; per the spec (and by analogy with the other two
variants) it computes the packed index, bound-checks it and delegates. -/
def setPar3 (s : Bernstein3DMix) (l m n : ℕ) (v : ℚ) : Bernstein3DMix × Bool :=
  if s.index l m n < s.npars then s.setPar (s.index l m n) v else (s, false)

/-- `Bernstein3DMix::x(tx)` (inline); the y edges are aliases of the x
edges, so the y transform coincides with this one. -/
def x (s : Bernstein3DMix) (tx : ℚ) : ℚ := s.xmin + (s.xmax - s.xmin) * tx

/-- `Bernstein3DMix::tx(x)` (inline). -/
def tx (s : Bernstein3DMix) (xx : ℚ) : ℚ := (xx - s.xmin) / (s.xmax - s.xmin)

/-- `Bernstein3DMix::z(tz)` (inline). -/
def z (s : Bernstein3DMix) (tz : ℚ) : ℚ := s.zmin + (s.zmax - s.zmin) * tz

/-- `Bernstein3DMix::tz(z)` (inline). -/
def tz (s : Bernstein3DMix) (zz : ℚ) : ℚ := (zz - s.zmin) / (s.zmax - s.zmin)

/-- Modelled from the spec (evaluation, section 4.2): the body of
`Bernstein3DMix::evaluate` is outside the source tree; per the spec it
iterates the full basis-triple cube and looks up each packed coefficient by
its canonicalized index. -/
def evaluate (s : Bernstein3DMix) (xx yy zz : ℚ) : ℚ :=
  if xx < s.xmin ∨ s.xmax < xx ∨ yy < s.xmin ∨ s.xmax < yy ∨
     zz < s.zmin ∨ s.zmax < zz then 0
  else
    ∑ i ∈ Finset.range (s.n + 1), ∑ j ∈ Finset.range (s.n + 1),
      ∑ k ∈ Finset.range (s.nz + 1),
        s.par3 i j k * bernB s.n i (s.tx xx) * bernB s.n j (s.tx yy) *
          bernB s.nz k (s.tz zz)

/-- Modelled from the spec (section 4.3): `Bernstein3DMix::operator+=(a)`
has its body outside the source tree; per the spec it adds `a` divided by
the total number of basis triples, here `(N+1)^2 (Nz+1)`, to every packed
slot. -/
def addConst (s : Bernstein3DMix) (a : ℚ) : Bernstein3DMix :=
  { s with pars := fun k =>
      if k < s.npars then s.pars k + a / (((s.n + 1) ^ 2 * (s.nz + 1) : ℕ) : ℚ)
      else s.pars k }

end Bernstein3DMix

/-- Fuel-instrumented form of `Bernstein3DSym::index`: one unit of fuel is
spent on each self-call, and `none` is returned when the fuel runs out
before a non-recursive branch is reached. -/
def symIndexFuel (N : ℕ) : ℕ → ℕ → ℕ → ℕ → Option ℕ
  | 0, _, _, _ => none
  | fuel + 1, l, m, n =>
    if l < m then symIndexFuel N fuel m l n
    else if m < n then symIndexFuel N fuel l n m
    else some (Bernstein3DSym.core N l m n)

/-- Fuel-instrumented form of `Bernstein3DMix::index`. -/
def mixIndexFuel (N Nz : ℕ) : ℕ → ℕ → ℕ → ℕ → Option ℕ
  | 0, _, _, _ => none
  | fuel + 1, l, m, n =>
    if l < m then mixIndexFuel N Nz fuel m l n
    else some (Bernstein3DMix.core N Nz l m n)

/-- Each self-call of the symmetric reordering strictly decreases the
inversion count, so inversions bound the recursion depth: any fuel beyond
`inv3 l m n` reaches a non-recursive branch. -/
theorem symIndexFuel_eq (s : Bernstein3DSym) :
    ∀ fuel l m n, inv3 l m n < fuel →
      symIndexFuel s.n fuel l m n = some (s.index l m n) := by
  intro fuel
  induction fuel with
  | zero => intro l m n h; omega
  | succ fuel ih =>
    intro l m n h
    rw [symIndexFuel, Bernstein3DSym.index]
    by_cases h1 : l < m
    · simp only [if_pos h1]
      refine ih m l n ?_
      unfold inv3 at *
      split_ifs at * <;> omega
    · simp only [if_neg h1]
      by_cases h2 : m < n
      · simp only [if_pos h2]
        refine ih l n m ?_
        unfold inv3 at *
        split_ifs at * <;> omega
      · simp only [if_neg h2]

/-- Each self-call of the mixed reordering strictly decreases the swap
indicator of the first pair, so any fuel beyond it reaches a non-recursive
branch. -/
theorem mixIndexFuel_eq (s : Bernstein3DMix) :
    ∀ fuel l m n, (if l < m then 1 else 0) < fuel →
      mixIndexFuel s.n s.nz fuel l m n = some (s.index l m n) := by
  intro fuel
  induction fuel with
  | zero => intro l m n h; omega
  | succ fuel ih =>
    intro l m n h
    rw [mixIndexFuel, Bernstein3DMix.index]
    by_cases h1 : l < m
    · simp only [if_pos h1]
      refine ih m l n ?_
      split_ifs at * <;> omega
    · simp only [if_neg h1]

/-- Modelled from the spec: the rational stand-ins for the squared direction
sine of an NSphere phase; the NSphere itself is an external collaborator,
modelled only through its contract that each phase contributes a
complementary pair of non-negative factors summing to one. -/
def sin2 (p : ℚ) : ℚ := p ^ 2 / (1 + p ^ 2)

/-- Modelled from the spec: the rational stand-in for the squared direction
cosine of an NSphere phase; `cos2 p + sin2 p = 1` and both are
non-negative, matching the contract in section 6. -/
def cos2 (p : ℚ) : ℚ := 1 / (1 + p ^ 2)

/-- Modelled from the spec (sections 3 and 4.5): the weight vector an
NSphere with `nphi` phases derives from its phase parameters -- `M = nphi+1`
non-negative values summing to one, the squared direction cosines. -/
def nsphereWeight (nphi : ℕ) (phases : ℕ → ℚ) (i : ℕ) : ℚ :=
  (if i < nphi then cos2 (phases i) else 1) *
    ∏ j ∈ Finset.range (min i nphi), sin2 (phases j)

/-- The wrapper `Positive3D`: a `Bernstein3D` plus the NSphere phase
parameters (the sphere itself is external to the source tree). -/
structure Positive3D where
  bernstein : Bernstein3D
  phases : ℕ → ℚ

namespace Positive3D

/-- Modelled from the spec (section 4.5): the constructor (whose body is
not under the source tree) builds the sphere with one phase fewer than the
tensor has coefficient slots, so `m_sphere.nPhi()` is the slot count minus
one. -/
def nphi (p : Positive3D) : ℕ := p.bernstein.npars - 1

/-- `Positive3D::npars()` (inline in the header): `m_sphere.nPhi()`. -/
def npars (p : Positive3D) : ℕ := p.nphi

/-- Modelled from the spec (section 4.5): the resync copies the sphere
weight vector verbatim into the tensor coefficient storage, slot for
slot. -/
def updateBernstein (p : Positive3D) : Positive3D :=
  { p with bernstein := { p.bernstein with pars := nsphereWeight p.nphi p.phases } }

/-- Modelled from the spec (sections 4.5 and 7): `Positive3D::setPar` has
its body outside the source tree; per the spec an in-range write stores the
phase and immediately resyncs the tensor, an out-of-range write is a no-op
reported as failure, never an exception. -/
def setPar (p : Positive3D) (k : ℕ) (v : ℚ) : Positive3D × Bool :=
  if k < p.nphi then
    (updateBernstein { p with phases := fun j => if j = k then v else p.phases j }, true)
  else (p, false)

end Positive3D

/-- Twice the triangular number is the product of two consecutive
integers. -/
theorem two_mul_choose2 : ∀ a : ℕ, 2 * (a + 1).choose 2 = a * (a + 1)
  | 0 => by decide
  | a + 1 => by
    have hp : (a + 2).choose 2 = (a + 1).choose 1 + (a + 1).choose 2 :=
      Nat.choose_succ_succ (a + 1) 1
    calc 2 * (a + 1 + 1).choose 2 = 2 * (a + 1) + 2 * (a + 1).choose 2 := by
          rw [show a + 1 + 1 = a + 2 from rfl, hp, Nat.choose_one_right]; ring
      _ = 2 * (a + 1) + a * (a + 1) := by rw [two_mul_choose2 a]
      _ = (a + 1) * (a + 1 + 1) := by ring

/-- Six times the tetrahedral number is the product of three consecutive
integers. -/
theorem six_mul_choose3 : ∀ a : ℕ, 6 * (a + 2).choose 3 = a * (a + 1) * (a + 2)
  | 0 => by decide
  | a + 1 => by
    have hp : (a + 3).choose 3 = (a + 2).choose 2 + (a + 2).choose 3 :=
      Nat.choose_succ_succ (a + 2) 2
    calc 6 * (a + 1 + 2).choose 3
        = 3 * (2 * (a + 2).choose 2) + 6 * (a + 2).choose 3 := by
          rw [show a + 1 + 2 = a + 3 from rfl, hp]; ring
      _ = 3 * ((a + 1) * (a + 2)) + a * (a + 1) * (a + 2) := by
          rw [two_mul_choose2 (a + 1), six_mul_choose3 a]
      _ = (a + 1) * (a + 1 + 1) * (a + 1 + 2) := by ring

/-- The pair-packing formula in division form is a binomial coefficient. -/
theorem choose2_div (a : ℕ) : a * (a + 1) / 2 = (a + 1).choose 2 := by
  rw [← two_mul_choose2 a]
  omega

/-- The triple-packing formula in division form is a binomial
coefficient. -/
theorem choose3_div (a : ℕ) : a * (a + 1) * (a + 2) / 6 = (a + 2).choose 3 := by
  rw [← six_mul_choose3 a]
  omega

/-- The tetrahedral-number formula on a descending in-range triple stays
below the packed slot count, in binomial-coefficient form. -/
theorem sym_choose_lt (N l m n : ℕ) (hnm : n ≤ m) (hml : m ≤ l) (hlN : l ≤ N) :
    (l + 2).choose 3 + (m + 1).choose 2 + n < (N + 3).choose 3 := by
  have h2 : (l + 2).choose 3 ≤ (N + 2).choose 3 := Nat.choose_le_choose 3 (by omega)
  have h3 : (m + 1).choose 2 ≤ (N + 1).choose 2 := Nat.choose_le_choose 2 (by omega)
  have hp1 : (N + 3).choose 3 = (N + 2).choose 2 + (N + 2).choose 3 :=
    Nat.choose_succ_succ (N + 2) 2
  have hp2 : (N + 2).choose 2 = (N + 1).choose 1 + (N + 1).choose 2 :=
    Nat.choose_succ_succ (N + 1) 1
  rw [hp1, hp2, Nat.choose_one_right]
  omega

/-- The symmetric slot count is a binomial coefficient. -/
theorem sym_npars_choose (s : Bernstein3DSym) : s.npars = (s.n + 3).choose 3 := by
  have h := choose3_div (s.n + 1)
  unfold Bernstein3DSym.npars
  simpa using h

/-- The row-major flat index of an in-range basis triple stays below the
slot count of `Bernstein3D`. -/
theorem index3_exact_lt {nx ny nz l m n : ℕ} (hl : l ≤ nx) (hm : m ≤ ny) (hn : n ≤ nz) :
    (nz + 1) * (ny + 1) * l + (nz + 1) * m + n < (nx + 1) * (ny + 1) * (nz + 1) := by
  have h1 : (nz + 1) * (ny + 1) * l + (nz + 1) * m + n
      ≤ (nz + 1) * (ny + 1) * nx + (nz + 1) * ny + nz :=
    Nat.add_le_add (Nat.add_le_add (Nat.mul_le_mul_left _ hl) (Nat.mul_le_mul_left _ hm)) hn
  have h2 : (nz + 1) * (ny + 1) * nx + (nz + 1) * ny + nz + 1
      = (nx + 1) * (ny + 1) * (nz + 1) := by ring
  exact lt_of_le_of_lt h1 (Nat.lt_of_lt_of_le (Nat.lt_succ_self _) (le_of_eq h2))

/-- The mixed packing formula of an in-range triple with a descending first
pair stays below the slot count of `Bernstein3DMix`. -/
theorem mix_exact_lt {N Nz l m n : ℕ} (hml : m ≤ l) (hlN : l ≤ N) (hn : n ≤ Nz) :
    (l * (l + 1) / 2 + m) * (Nz + 1) + n < (N + 1) * (N + 2) / 2 * (Nz + 1) := by
  have e1 : l * (l + 1) / 2 = (l + 1).choose 2 := choose2_div l
  have e2 : (N + 1) * (N + 2) / 2 = (N + 2).choose 2 := by
    have h := choose2_div (N + 1)
    simpa using h
  have hpair : l * (l + 1) / 2 + m + 1 ≤ (N + 1) * (N + 2) / 2 := by
    have h3 : (l + 1).choose 2 ≤ (N + 1).choose 2 := Nat.choose_le_choose 2 (by omega)
    have hp2 : (N + 2).choose 2 = (N + 1).choose 1 + (N + 1).choose 2 :=
      Nat.choose_succ_succ (N + 1) 1
    rw [e1, e2, hp2, Nat.choose_one_right]
    omega
  calc (l * (l + 1) / 2 + m) * (Nz + 1) + n
      < (l * (l + 1) / 2 + m) * (Nz + 1) + (Nz + 1) := by omega
    _ = (l * (l + 1) / 2 + m + 1) * (Nz + 1) := by ring
    _ ≤ (N + 1) * (N + 2) / 2 * (Nz + 1) := Nat.mul_le_mul_right _ hpair

/-- Splitting a sum over `range (A*B)` into a double sum by the base-`B`
digit decomposition. -/
theorem sum_range_mul_split (A B : ℕ) (f : ℕ → ℚ) :
    ∑ k ∈ Finset.range (A * B), f k
      = ∑ i ∈ Finset.range A, ∑ j ∈ Finset.range B, f (B * i + j) := by
  induction A with
  | zero => simp
  | succ A ih =>
    rw [show (A + 1) * B = A * B + B from by ring, Finset.sum_range_add,
      Finset.sum_range_succ, ih]
    congr 1
    refine Finset.sum_congr rfl fun j _ => ?_
    congr 1
    ring

/-- An in-range basis triple of `Bernstein3D` is always mapped to a slot
below the slot count: when the count fits 32 bits the flat index is exact
and below it, and when it does not, the wrapped index is below 2^32 and
hence still below it. -/
theorem b3_index_lt_npars (b : Bernstein3D) {i j k : ℕ}
    (hi : i ≤ b.nx) (hj : j ≤ b.ny) (hk : k ≤ b.nz) :
    b.index i j k < b.npars := by
  unfold Bernstein3D.index
  rw [if_neg (by omega)]
  rcases le_or_lt b.npars W with hw | hw
  · have hE : (b.nz + 1) * (b.ny + 1) * i + (b.nz + 1) * j + k < b.npars :=
      index3_exact_lt hi hj hk
    rw [Nat.mod_eq_of_lt (lt_of_lt_of_le hE hw)]
    exact hE
  · exact lt_trans (Nat.mod_lt _ (by norm_num [W])) hw

/-- An in-range basis triple of `Bernstein3DSym` is always mapped to a slot
below the packed slot count: every 32-bit reduction and integer division in
the tetrahedral formula can only shrink the value, so the wrapped index is
bounded by the exact index, which stays below the slot count. -/
theorem sym_index_lt_npars (s : Bernstein3DSym) {i j k : ℕ}
    (hi : i ≤ s.n) (hj : j ≤ s.n) (hk : k ≤ s.n) :
    s.index i j k < s.npars := by
  rw [Bernstein3DSym.index_eq_core]
  unfold Bernstein3DSym.core
  rw [if_neg (by unfold max3; omega)]
  have ha : max3 i j k ≤ s.n := by unfold max3; omega
  have hba : mid3 i j k ≤ max3 i j k := by unfold mid3 max3 min3; omega
  have hcb : min3 i j k ≤ mid3 i j k := by unfold mid3 max3 min3; omega
  set a := max3 i j k with hadef
  set b := mid3 i j k with hbdef
  set c := min3 i j k with hcdef
  have h1 : a * (a + 1) * (a + 2) % W / 6 ≤ a * (a + 1) * (a + 2) / 6 :=
    Nat.div_le_div_right (Nat.mod_le _ _)
  have h2 : b * (b + 1) % W / 2 ≤ b * (b + 1) / 2 :=
    Nat.div_le_div_right (Nat.mod_le _ _)
  have hexact : a * (a + 1) * (a + 2) / 6 + b * (b + 1) / 2 + c < s.npars := by
    rw [choose3_div a, choose2_div b, sym_npars_choose]
    exact sym_choose_lt s.n a b c hcb hba ha
  calc (a * (a + 1) * (a + 2) % W / 6 + b * (b + 1) % W / 2 + c) % W
      ≤ a * (a + 1) * (a + 2) % W / 6 + b * (b + 1) % W / 2 + c := Nat.mod_le _ _
    _ ≤ a * (a + 1) * (a + 2) / 6 + b * (b + 1) / 2 + c :=
        Nat.add_le_add (Nat.add_le_add h1 h2) (le_refl c)
    _ < s.npars := hexact

/-- An in-range basis triple of `Bernstein3DMix` is always mapped to a slot
below the packed slot count: every 32-bit reduction and integer division in
the pair formula can only shrink the value, so the wrapped index is bounded
by the exact index, which stays below the slot count. -/
theorem mix_index_lt_npars (t : Bernstein3DMix) {i j k : ℕ}
    (hi : i ≤ t.n) (hj : j ≤ t.n) (hk : k ≤ t.nz) :
    t.index i j k < t.npars := by
  rw [Bernstein3DMix.mix_index_eq_core]
  unfold Bernstein3DMix.core
  rw [if_neg (by omega), if_neg (by omega)]
  have h1 : max i j * (max i j + 1) % W / 2 ≤ max i j * (max i j + 1) / 2 :=
    Nat.div_le_div_right (Nat.mod_le _ _)
  have h2 : (max i j * (max i j + 1) % W / 2 + min i j) % W
      ≤ max i j * (max i j + 1) / 2 + min i j :=
    le_trans (Nat.mod_le _ _) (Nat.add_le_add h1 (le_refl _))
  have hexact : (max i j * (max i j + 1) / 2 + min i j) * (t.nz + 1) + k < t.npars := by
    unfold Bernstein3DMix.npars
    exact mix_exact_lt (min_le_max) (by omega) hk
  calc ((max i j * (max i j + 1) % W / 2 + min i j) % W * (t.nz + 1) + k) % W
      ≤ (max i j * (max i j + 1) % W / 2 + min i j) % W * (t.nz + 1) + k :=
        Nat.mod_le _ _
    _ ≤ (max i j * (max i j + 1) / 2 + min i j) * (t.nz + 1) + k :=
        Nat.add_le_add (Nat.mul_le_mul_right _ h2) (le_refl k)
    _ < t.npars := hexact

/-- Product of three sums as a triple sum. -/
theorem triple_sum_mul (R1 R2 R3 : Finset ℕ) (g1 g2 g3 : ℕ → ℚ) :
    (∑ i ∈ R1, g1 i) * (∑ j ∈ R2, g2 j) * (∑ k ∈ R3, g3 k)
      = ∑ i ∈ R1, ∑ j ∈ R2, ∑ k ∈ R3, g1 i * g2 j * g3 k := by
  rw [mul_assoc, Finset.sum_mul_sum R2 R3 g2 g3, Finset.sum_mul]
  refine Finset.sum_congr rfl fun i _ => ?_
  rw [Finset.mul_sum]
  refine Finset.sum_congr rfl fun j _ => ?_
  rw [Finset.mul_sum]
  refine Finset.sum_congr rfl fun k _ => ?_
  ring

/-- A constant factored out of a triple sum of products of one-variable
factors. -/
theorem triple_sum_const_mul (R1 R2 R3 : Finset ℕ) (c : ℚ) (g1 g2 g3 : ℕ → ℚ) :
    ∑ i ∈ R1, ∑ j ∈ R2, ∑ k ∈ R3, c * (g1 i * g2 j * g3 k)
      = c * ((∑ i ∈ R1, g1 i) * (∑ j ∈ R2, g2 j) * (∑ k ∈ R3, g3 k)) := by
  rw [triple_sum_mul, Finset.mul_sum]
  refine Finset.sum_congr rfl fun i _ => ?_
  rw [Finset.mul_sum]
  refine Finset.sum_congr rfl fun j _ => ?_
  rw [Finset.mul_sum]

/-- The symmetric index map depends only on the sorted rearrangement of its
argument triple. -/
theorem sym_index_perm (s : Bernstein3DSym) (a b c p q r : ℕ)
    (h1 : max3 a b c = max3 p q r) (h2 : mid3 a b c = mid3 p q r)
    (h3 : min3 a b c = min3 p q r) :
    s.index a b c = s.index p q r := by
  rw [s.index_eq_core a b c, s.index_eq_core p q r, h1, h2, h3]

set_option maxHeartbeats 1000000 in
/-- C2: for every `Bernstein3DSym` and every triple with all components in
`[0,N]`, the coefficient getter `par(l,m,n)` returns the same value on all
six permutations of the triple, because the recursive canonicalization in
`index` maps them to the same storage slot. -/
theorem sym_par3_permutation_invariant (s : Bernstein3DSym) (l m n : ℕ)
    (hl : l ≤ s.n) (hm : m ≤ s.n) (hn : n ≤ s.n) :
    s.par3 l m n = s.par3 m l n ∧ s.par3 l m n = s.par3 l n m ∧
      s.par3 l m n = s.par3 n m l ∧ s.par3 l m n = s.par3 m n l ∧
      s.par3 l m n = s.par3 n l m := by
  have e : ∀ p q r : ℕ, max3 l m n = max3 p q r → mid3 l m n = mid3 p q r →
      min3 l m n = min3 p q r → s.par3 l m n = s.par3 p q r :=
    fun p q r h1 h2 h3 => congrArg s.par (sym_index_perm s l m n p q r h1 h2 h3)
  exact ⟨e m l n (by unfold max3; omega) (by unfold mid3 max3 min3; omega)
      (by unfold min3; omega),
    e l n m (by unfold max3; omega) (by unfold mid3 max3 min3; omega)
      (by unfold min3; omega),
    e n m l (by unfold max3; omega) (by unfold mid3 max3 min3; omega)
      (by unfold min3; omega),
    e m n l (by unfold max3; omega) (by unfold mid3 max3 min3; omega)
      (by unfold min3; omega),
    e n l m (by unfold max3; omega) (by unfold mid3 max3 min3; omega)
      (by unfold min3; omega)⟩

/-- A degree-2 symmetric tensor with distinct slot values, used as a
concrete witness instance. -/
def symW : Bernstein3DSym := ⟨2, fun k => (k : ℚ), 0, 1⟩

/-- Witness for C2 at the concrete triple (0,1,2) of a degree-2 symmetric
tensor. -/
theorem sym_par3_permutation_invariant_witness :
    (0 ≤ symW.n ∧ 1 ≤ symW.n ∧ 2 ≤ symW.n) ∧
      (symW.par3 0 1 2 = symW.par3 1 0 2 ∧ symW.par3 0 1 2 = symW.par3 0 2 1 ∧
        symW.par3 0 1 2 = symW.par3 2 1 0 ∧ symW.par3 0 1 2 = symW.par3 1 2 0 ∧
        symW.par3 0 1 2 = symW.par3 2 0 1) :=
  ⟨by refine ⟨?_, ?_, ?_⟩ <;> norm_num [symW],
    sym_par3_permutation_invariant symW 0 1 2 (by norm_num [symW])
      (by norm_num [symW]) (by norm_num [symW])⟩

/-- The affine map onto an interval inverts its normalization. -/
theorem affine_right_inv (a b v : ℚ) (h : a < b) :
    a + (b - a) * ((v - a) / (b - a)) = v := by
  have hne : b - a ≠ 0 := ne_of_gt (sub_pos.mpr h)
  field_simp

/-- The normalization of an interval inverts its affine map. -/
theorem affine_left_inv (a b t : ℚ) (h : a < b) :
    (a + (b - a) * t - a) / (b - a) = t := by
  have hne : b - a ≠ 0 := ne_of_gt (sub_pos.mpr h)
  field_simp

/-- C9: on every tensor variant and every axis the coordinate transforms
are mutually inverse: `x (tx v) = v` on the axis interval and
`tx (x t) = t` on `[0,1]`, given a proper interval. -/
theorem transforms_round_trip (b : Bernstein3D) (s : Bernstein3DSym) (t : Bernstein3DMix)
    (vx vy vz vs vtx vtz tq : ℚ)
    (hbx : b.xmin < b.xmax) (hby : b.ymin < b.ymax) (hbz : b.zmin < b.zmax)
    (hsx : s.xmin < s.xmax) (htx : t.xmin < t.xmax) (htz : t.zmin < t.zmax)
    (hvx : b.xmin ≤ vx ∧ vx ≤ b.xmax) (hvy : b.ymin ≤ vy ∧ vy ≤ b.ymax)
    (hvz : b.zmin ≤ vz ∧ vz ≤ b.zmax) (hvs : s.xmin ≤ vs ∧ vs ≤ s.xmax)
    (hvtx : t.xmin ≤ vtx ∧ vtx ≤ t.xmax) (hvtz : t.zmin ≤ vtz ∧ vtz ≤ t.zmax)
    (htq : 0 ≤ tq ∧ tq ≤ 1) :
    (b.x (b.tx vx) = vx ∧ b.tx (b.x tq) = tq) ∧
      (b.y (b.ty vy) = vy ∧ b.ty (b.y tq) = tq) ∧
      (b.z (b.tz vz) = vz ∧ b.tz (b.z tq) = tq) ∧
      (s.x (s.tx vs) = vs ∧ s.tx (s.x tq) = tq) ∧
      (t.x (t.tx vtx) = vtx ∧ t.tx (t.x tq) = tq) ∧
      (t.z (t.tz vtz) = vtz ∧ t.tz (t.z tq) = tq) := by
  refine ⟨⟨?_, ?_⟩, ⟨?_, ?_⟩, ⟨?_, ?_⟩, ⟨?_, ?_⟩, ⟨?_, ?_⟩, ⟨?_, ?_⟩⟩
  · exact affine_right_inv _ _ _ hbx
  · exact affine_left_inv _ _ _ hbx
  · exact affine_right_inv _ _ _ hby
  · exact affine_left_inv _ _ _ hby
  · exact affine_right_inv _ _ _ hbz
  · exact affine_left_inv _ _ _ hbz
  · exact affine_right_inv _ _ _ hsx
  · exact affine_left_inv _ _ _ hsx
  · exact affine_right_inv _ _ _ htx
  · exact affine_left_inv _ _ _ htx
  · exact affine_right_inv _ _ _ htz
  · exact affine_left_inv _ _ _ htz

/-- A generic asymmetric tensor on the box [0,2]x[0,3]x[0,4], used as a
concrete witness instance. -/
def boxB : Bernstein3D := ⟨1, 1, 1, fun _ => 0, 0, 2, 0, 3, 0, 4⟩

/-- A symmetric tensor on [0,2], used as a concrete witness instance. -/
def boxS : Bernstein3DSym := ⟨1, fun _ => 0, 0, 2⟩

/-- A mixed tensor on [0,2]x[0,2]x[0,3], used as a concrete witness
instance. -/
def boxM : Bernstein3DMix := ⟨1, 1, fun _ => 0, 0, 2, 0, 3⟩

/-- Witness for C9 at concrete instances, points and normalized
parameter. -/
theorem transforms_round_trip_witness :
    (boxB.xmin < boxB.xmax ∧ boxB.ymin < boxB.ymax ∧ boxB.zmin < boxB.zmax ∧
      boxS.xmin < boxS.xmax ∧ boxM.xmin < boxM.xmax ∧ boxM.zmin < boxM.zmax) ∧
      ((boxB.x (boxB.tx 1) = 1 ∧ boxB.tx (boxB.x (1/3)) = 1/3) ∧
        (boxB.y (boxB.ty 1) = 1 ∧ boxB.ty (boxB.y (1/3)) = 1/3) ∧
        (boxB.z (boxB.tz 1) = 1 ∧ boxB.tz (boxB.z (1/3)) = 1/3) ∧
        (boxS.x (boxS.tx 1) = 1 ∧ boxS.tx (boxS.x (1/3)) = 1/3) ∧
        (boxM.x (boxM.tx 1) = 1 ∧ boxM.tx (boxM.x (1/3)) = 1/3) ∧
        (boxM.z (boxM.tz 1) = 1 ∧ boxM.tz (boxM.z (1/3)) = 1/3)) :=
  ⟨by refine ⟨?_, ?_, ?_, ?_, ?_, ?_⟩ <;> norm_num [boxB, boxS, boxM],
    transforms_round_trip boxB boxS boxM 1 1 1 1 1 1 (1/3)
      (by norm_num [boxB]) (by norm_num [boxB]) (by norm_num [boxB])
      (by norm_num [boxS]) (by norm_num [boxM]) (by norm_num [boxM])
      (by constructor <;> norm_num [boxB]) (by constructor <;> norm_num [boxB])
      (by constructor <;> norm_num [boxB]) (by constructor <;> norm_num [boxS])
      (by constructor <;> norm_num [boxM]) (by constructor <;> norm_num [boxM])
      (by norm_num)⟩

/-- C10: both recursive index canonicalizations are total: with fuel
bounding the inversion count of the argument triple each one reaches a
non-recursive branch and agrees with the fuel-free function, for all
natural-number triples (in particular all unsigned-short ones). -/
theorem index_recursion_total (s : Bernstein3DSym) (t : Bernstein3DMix) (l m n : ℕ) :
    symIndexFuel s.n 4 l m n = some (s.index l m n) ∧
      mixIndexFuel t.n t.nz 2 l m n = some (t.index l m n) :=
  ⟨symIndexFuel_eq s 4 l m n (by unfold inv3; split_ifs <;> omega),
    mixIndexFuel_eq t 2 l m n (by split_ifs <;> omega)⟩

/-- A degree-(1,1,1) tensor on the unit cube with all coefficients zero. -/
def cubeB : Bernstein3D := ⟨1, 1, 1, fun _ => 0, 0, 1, 0, 1, 0, 1⟩

/-- A degree-1 symmetric tensor on [0,1] with all coefficients zero. -/
def cubeS : Bernstein3DSym := ⟨1, fun _ => 0, 0, 1⟩

/-- C6: evidence that the transcribed guard of `basicX` misbehaves.  At the
in-domain point 1/2 of the unit interval the helper returns 0, although the
Bernstein basis value there is 1/2, because the condition `x < m_xmax`
makes every point strictly below the upper edge take the zero branch; and
at the out-of-domain point 2 the helper returns the raw polynomial value
-1 instead of the clamped 0.  The same slip appears verbatim in the
symmetric variant. -/
theorem basicX_domain_clamp_violated :
    cubeB.basicX 0 (1/2) = 0 ∧ bernB cubeB.nx 0 (cubeB.tx (1/2)) = 1/2 ∧
      cubeB.basicX 0 2 = -1 ∧
      cubeS.basicX 0 (1/2) = 0 ∧ bernB cubeS.n 0 (cubeS.tx (1/2)) = 1/2 ∧
      cubeS.basicX 0 2 = -1 := by
  refine ⟨?_, ?_, ?_, ?_, ?_, ?_⟩ <;>
    norm_num [cubeB, cubeS, Bernstein3D.basicX, Bernstein3DSym.basicX,
      Bernstein3D.tx, Bernstein3DSym.tx, bernB]

/-- A tensor of degrees (65534,65534,65534): its slot count exceeds the
32-bit range, so the sentinel index `2^32 - 1` names a real slot. -/
def hugeB : Bernstein3D := ⟨65534, 65534, 65534, fun _ => 0, 0, 1, 0, 1, 0, 1⟩

/-- C7 counterexample: on a tensor whose slot count exceeds `2^32 - 1` the
out-of-range triple (65535,0,0) is mapped to the sentinel `2^32 - 1`, which
passes the bound check: the setter reports success and overwrites the slot
4294967295 instead of failing and leaving the coefficients unchanged. -/
theorem out_of_range_setter_aliases_slot :
    (hugeB.setPar3 65535 0 0 1).2 = true ∧
      ((hugeB.setPar3 65535 0 0 1).1).par 4294967295 = 1 ∧
      hugeB.par 4294967295 = 0 := by
  have hidx : hugeB.index 65535 0 0 = 4294967295 := by
    norm_num [hugeB, Bernstein3D.index, sentinel, W]
  have hlt : (4294967295 : ℕ) < hugeB.npars := by
    norm_num [hugeB, Bernstein3D.npars]
  refine ⟨?_, ?_, ?_⟩
  · unfold Bernstein3D.setPar3
    rw [hidx, if_pos hlt]
    unfold Bernstein3D.setPar
    rw [if_pos hlt]
  · unfold Bernstein3D.setPar3
    rw [hidx, if_pos hlt]
    unfold Bernstein3D.setPar
    rw [if_pos hlt]
    unfold Bernstein3D.par
    have : Bernstein3D.npars { hugeB with
        pars := fun j => if j = 4294967295 then 1 else hugeB.pars j } = hugeB.npars := rfl
    simp only [this, if_pos hlt]
    simp
  · unfold Bernstein3D.par
    rw [if_pos hlt]
    norm_num [hugeB]

set_option maxHeartbeats 1000000 in
/-- C7 amended: on every tensor variant whose slot count is at most
`2^32 - 1` (as in every realistic configuration), an out-of-range flat
index or triple makes the getter return 0 and the setter a no-op returning
false; all accessors are total functions, so no exception can arise. -/
theorem out_of_range_access_rejected
    (b : Bernstein3D) (s : Bernstein3DSym) (t : Bernstein3DMix)
    (k l m n : ℕ) (v : ℚ)
    (hb : b.npars ≤ sentinel) (hs : s.npars ≤ sentinel) (ht : t.npars ≤ sentinel) :
    (b.npars ≤ k → b.par k = 0 ∧ b.setPar k v = (b, false)) ∧
      ((b.nx < l ∨ b.ny < m ∨ b.nz < n) →
        b.par3 l m n = 0 ∧ b.setPar3 l m n v = (b, false)) ∧
      (s.npars ≤ k → s.par k = 0 ∧ s.setPar k v = (s, false)) ∧
      ((s.n < l ∨ s.n < m ∨ s.n < n) →
        s.par3 l m n = 0 ∧ s.setPar3 l m n v = (s, false)) ∧
      (t.npars ≤ k → t.par k = 0 ∧ t.setPar k v = (t, false)) ∧
      ((t.n < l ∨ t.n < m ∨ t.nz < n) →
        t.par3 l m n = 0 ∧ t.setPar3 l m n v = (t, false)) := by
  refine ⟨fun hk => ?_, fun htrip => ?_, fun hk => ?_, fun htrip => ?_,
    fun hk => ?_, fun htrip => ?_⟩
  · exact ⟨by unfold Bernstein3D.par; rw [if_neg (by omega)],
      by unfold Bernstein3D.setPar; rw [if_neg (by omega)]⟩
  · have hidx : b.index l m n = sentinel := by
      unfold Bernstein3D.index
      rw [if_pos htrip]
    have hns : ¬ b.index l m n < b.npars := by omega
    exact ⟨by unfold Bernstein3D.par3 Bernstein3D.par; rw [if_neg hns],
      by unfold Bernstein3D.setPar3; rw [if_neg hns]⟩
  · exact ⟨by unfold Bernstein3DSym.par; rw [if_neg (by omega)],
      by unfold Bernstein3DSym.setPar; rw [if_neg (by omega)]⟩
  · have hidx : s.index l m n = sentinel := by
      rw [s.index_eq_core l m n]
      unfold Bernstein3DSym.core
      rw [if_pos (by unfold max3; omega)]
    have hns : ¬ s.index l m n < s.npars := by omega
    exact ⟨by unfold Bernstein3DSym.par3 Bernstein3DSym.par; rw [if_neg hns],
      by unfold Bernstein3DSym.setPar3; rw [if_neg hns]⟩
  · exact ⟨by unfold Bernstein3DMix.par; rw [if_neg (by omega)],
      by unfold Bernstein3DMix.setPar; rw [if_neg (by omega)]⟩
  · have hidx : t.index l m n = sentinel := by
      rw [t.mix_index_eq_core l m n]
      unfold Bernstein3DMix.core
      rcases htrip with h | h | h
      · rw [if_pos (by omega)]
      · rw [if_pos (by omega)]
      · by_cases hmax : t.n < max l m
        · rw [if_pos hmax]
        · rw [if_neg hmax, if_pos h]
    have hns : ¬ t.index l m n < t.npars := by omega
    exact ⟨by unfold Bernstein3DMix.par3 Bernstein3DMix.par; rw [if_neg hns],
      by unfold Bernstein3DMix.setPar3; rw [if_neg hns]⟩

/-- Witness for the amended C7 on small concrete instances, the flat index
100 and the triple (5,0,0). -/
theorem out_of_range_access_rejected_witness :
    (cubeB.npars ≤ sentinel ∧ cubeS.npars ≤ sentinel ∧ boxM.npars ≤ sentinel) ∧
      ((cubeB.npars ≤ 100 → cubeB.par 100 = 0 ∧ cubeB.setPar 100 7 = (cubeB, false)) ∧
        ((cubeB.nx < 5 ∨ cubeB.ny < 0 ∨ cubeB.nz < 0) →
          cubeB.par3 5 0 0 = 0 ∧ cubeB.setPar3 5 0 0 7 = (cubeB, false)) ∧
        (cubeS.npars ≤ 100 → cubeS.par 100 = 0 ∧ cubeS.setPar 100 7 = (cubeS, false)) ∧
        ((cubeS.n < 5 ∨ cubeS.n < 0 ∨ cubeS.n < 0) →
          cubeS.par3 5 0 0 = 0 ∧ cubeS.setPar3 5 0 0 7 = (cubeS, false)) ∧
        (boxM.npars ≤ 100 → boxM.par 100 = 0 ∧ boxM.setPar 100 7 = (boxM, false)) ∧
        ((boxM.n < 5 ∨ boxM.n < 0 ∨ boxM.nz < 0) →
          boxM.par3 5 0 0 = 0 ∧ boxM.setPar3 5 0 0 7 = (boxM, false))) :=
  ⟨by refine ⟨?_, ?_, ?_⟩ <;>
      norm_num [cubeB, cubeS, boxM, Bernstein3D.npars, Bernstein3DSym.npars,
        Bernstein3DMix.npars, sentinel, W],
    out_of_range_access_rejected cubeB cubeS boxM 100 5 0 0 7
      (by norm_num [cubeB, Bernstein3D.npars, sentinel, W])
      (by norm_num [cubeS, Bernstein3DSym.npars, sentinel, W])
      (by norm_num [boxM, Bernstein3DMix.npars, sentinel, W])⟩

/-- A wrapper around the degree-(1,1,1) unit-cube tensor with all phases
zero, used as a concrete witness instance. -/
def posCube : Positive3D := ⟨cubeB, fun _ => 0⟩

/-- C8: a `Positive3D` exposes `(nx+1)(ny+1)(nz+1) - 1` free parameters
(the sphere consumes one degree of freedom for the sum-to-one constraint),
and setting a parameter index at or beyond that count fails and leaves the
wrapper -- sphere phases and tensor coefficients alike -- unchanged. -/
theorem positive3D_npars_and_setPar_reject (p : Positive3D) (k : ℕ) (v : ℚ)
    (hk : p.npars ≤ k) :
    p.npars = (p.bernstein.nx + 1) * (p.bernstein.ny + 1) * (p.bernstein.nz + 1) - 1 ∧
      p.setPar k v = (p, false) := by
  constructor
  · rfl
  · unfold Positive3D.setPar
    rw [if_neg (by exact fun h => absurd (lt_of_le_of_lt hk h) (lt_irrefl _))]

/-- Witness for C8: the unit-cube degree-(1,1,1) wrapper has 7 free
parameters and rejects parameter index 7. -/
theorem positive3D_npars_and_setPar_reject_witness :
    (posCube.npars ≤ 7 ∧ posCube.npars = 7) ∧
      (posCube.npars =
          (posCube.bernstein.nx + 1) * (posCube.bernstein.ny + 1) *
            (posCube.bernstein.nz + 1) - 1 ∧
        posCube.setPar 7 1 = (posCube, false)) :=
  ⟨by constructor <;>
      norm_num [posCube, cubeB, Positive3D.npars, Positive3D.nphi, Bernstein3D.npars],
    positive3D_npars_and_setPar_reject posCube 7 1
      (by norm_num [posCube, cubeB, Positive3D.npars, Positive3D.nphi,
        Bernstein3D.npars])⟩

/-- With all stored coefficients equal to one, every in-cube packed lookup
gives one. -/
theorem par3_of_all_ones (b : Bernstein3D) (hall : ∀ k, k < b.npars → b.pars k = 1)
    {i j k : ℕ} (hi : i ≤ b.nx) (hj : j ≤ b.ny) (hk : k ≤ b.nz) :
    b.par3 i j k = 1 := by
  have h := b3_index_lt_npars b hi hj hk
  unfold Bernstein3D.par3 Bernstein3D.par
  rw [if_pos h]
  exact hall _ h

/-- C5: a `Bernstein3D` whose stored coefficients are all one evaluates to
one at every point of its domain box, and its full-domain integral is the
box volume; in particular the degree-(1,1,1) unit-cube instance evaluates
to one on the cube and integrates to one. -/
theorem all_ones_tensor (b : Bernstein3D) (x y z : ℚ)
    (hall : ∀ k, k < b.npars → b.pars k = 1)
    (hx : b.xmin ≤ x ∧ x ≤ b.xmax) (hy : b.ymin ≤ y ∧ y ≤ b.ymax)
    (hz : b.zmin ≤ z ∧ z ≤ b.zmax) :
    b.evaluate x y z = 1 ∧
      b.integralFull = (b.xmax - b.xmin) * (b.ymax - b.ymin) * (b.zmax - b.zmin) := by
  constructor
  · unfold Bernstein3D.evaluate
    rw [if_neg (by push_neg; exact ⟨hx.1, hx.2, hy.1, hy.2, hz.1, hz.2⟩)]
    calc ∑ i ∈ Finset.range (b.nx + 1), ∑ j ∈ Finset.range (b.ny + 1),
          ∑ k ∈ Finset.range (b.nz + 1),
            b.par3 i j k * bernB b.nx i (b.tx x) * bernB b.ny j (b.ty y) *
              bernB b.nz k (b.tz z)
        = ∑ i ∈ Finset.range (b.nx + 1), ∑ j ∈ Finset.range (b.ny + 1),
            ∑ k ∈ Finset.range (b.nz + 1),
              bernB b.nx i (b.tx x) * bernB b.ny j (b.ty y) * bernB b.nz k (b.tz z) := by
          refine Finset.sum_congr rfl fun i hi2 => Finset.sum_congr rfl fun j hj2 =>
            Finset.sum_congr rfl fun k hk2 => ?_
          rw [par3_of_all_ones b hall (by have := Finset.mem_range.1 hi2; omega)
            (by have := Finset.mem_range.1 hj2; omega)
            (by have := Finset.mem_range.1 hk2; omega)]
          ring
      _ = (∑ i ∈ Finset.range (b.nx + 1), bernB b.nx i (b.tx x)) *
            (∑ j ∈ Finset.range (b.ny + 1), bernB b.ny j (b.ty y)) *
            (∑ k ∈ Finset.range (b.nz + 1), bernB b.nz k (b.tz z)) :=
          (triple_sum_mul _ _ _ _ _ _).symm
      _ = 1 := by rw [sum_bernB, sum_bernB, sum_bernB]; ring
  · unfold Bernstein3D.integralFull
    calc ∑ i ∈ Finset.range (b.nx + 1), ∑ j ∈ Finset.range (b.ny + 1),
          ∑ k ∈ Finset.range (b.nz + 1),
            b.par3 i j k * ((b.xmax - b.xmin) / (b.nx + 1)) *
              ((b.ymax - b.ymin) / (b.ny + 1)) * ((b.zmax - b.zmin) / (b.nz + 1))
        = ∑ i ∈ Finset.range (b.nx + 1), ∑ j ∈ Finset.range (b.ny + 1),
            ∑ k ∈ Finset.range (b.nz + 1),
              ((b.xmax - b.xmin) / (b.nx + 1)) * ((b.ymax - b.ymin) / (b.ny + 1)) *
                ((b.zmax - b.zmin) / (b.nz + 1)) := by
          refine Finset.sum_congr rfl fun i hi2 => Finset.sum_congr rfl fun j hj2 =>
            Finset.sum_congr rfl fun k hk2 => ?_
          rw [par3_of_all_ones b hall (by have := Finset.mem_range.1 hi2; omega)
            (by have := Finset.mem_range.1 hj2; omega)
            (by have := Finset.mem_range.1 hk2; omega)]
          ring
      _ = (b.xmax - b.xmin) * (b.ymax - b.ymin) * (b.zmax - b.zmin) := by
          simp only [Finset.sum_const, Finset.card_range, nsmul_eq_mul]
          have h1 : ((b.nx : ℚ) + 1) ≠ 0 := by positivity
          have h2 : ((b.ny : ℚ) + 1) ≠ 0 := by positivity
          have h3 : ((b.nz : ℚ) + 1) ≠ 0 := by positivity
          push_cast
          field_simp
          ring

/-- The degree-(1,1,1) unit-cube tensor with all 8 coefficients one. -/
def onesB : Bernstein3D := ⟨1, 1, 1, fun _ => 1, 0, 1, 0, 1, 0, 1⟩

/-- Witness for C5: the degree-(1,1,1) unit-cube instance with all 8
coefficients one evaluates to one at (1/2,1/2,1/2) and integrates to the
unit volume. -/
theorem all_ones_tensor_witness :
    ((∀ k, k < onesB.npars → onesB.pars k = 1) ∧
        onesB.xmin ≤ 1/2 ∧ (1/2 : ℚ) ≤ onesB.xmax) ∧
      (onesB.evaluate (1/2) (1/2) (1/2) = 1 ∧
        onesB.integralFull =
          (onesB.xmax - onesB.xmin) * (onesB.ymax - onesB.ymin) *
            (onesB.zmax - onesB.zmin)) :=
  ⟨⟨fun k _ => rfl, by norm_num [onesB], by norm_num [onesB]⟩,
    all_ones_tensor onesB (1/2) (1/2) (1/2) (fun k _ => rfl)
      (by constructor <;> norm_num [onesB]) (by constructor <;> norm_num [onesB])
      (by constructor <;> norm_num [onesB])⟩

/-- An all-ones degree-(1,1,1) tensor on the box [0,2]x[0,1]x[0,1] of
volume 2. -/
def wideB : Bernstein3D := ⟨1, 1, 1, fun _ => 1, 0, 2, 0, 1, 0, 1⟩

/-- C4 counterexample: on a box of volume 2 the full-domain integral of the
all-ones tensor is 2, while the sum of the stored coefficients divided by
(nx+1)(ny+1)(nz+1) is 1: the claimed collapse formula misses the volume of
the domain box. -/
theorem integral_formula_misses_volume :
    wideB.integralFull = 2 ∧
      (∑ k ∈ Finset.range wideB.npars, wideB.par k) /
          (((wideB.nx + 1) * (wideB.ny + 1) * (wideB.nz + 1) : ℕ) : ℚ) = 1 ∧
      (2 : ℚ) ≠ 1 := by
  refine ⟨?_, ?_, by norm_num⟩
  · norm_num [wideB, Bernstein3D.integralFull, Bernstein3D.par3, Bernstein3D.par,
      Bernstein3D.index, Bernstein3D.npars, W, sentinel,
      Finset.sum_range_succ, Finset.sum_range_zero]
  · have he : ∀ k ∈ Finset.range wideB.npars, wideB.par k = 1 := by
      intro k hk
      have hk8 : k < 8 := by
        simpa [wideB, Bernstein3D.npars] using Finset.mem_range.1 hk
      simp [wideB, Bernstein3D.par, Bernstein3D.npars, hk8]
    rw [Finset.sum_congr rfl he]
    simp [wideB, Bernstein3D.npars]

/-- C4 amended: for every `Bernstein3D` whose slot count fits the 32-bit
index range, the full-domain integral collapses to the sum of all stored
coefficients times the volume of the domain box divided by
(nx+1)(ny+1)(nz+1); the claimed formula holds exactly on unit-volume
boxes. -/
theorem integralFull_collapses (b : Bernstein3D) (hW : b.npars ≤ W) :
    b.integralFull = (∑ k ∈ Finset.range b.npars, b.par k) *
        ((b.xmax - b.xmin) * (b.ymax - b.ymin) * (b.zmax - b.zmin)) /
        (((b.nx + 1) * (b.ny + 1) * (b.nz + 1) : ℕ) : ℚ) := by
  have hidx : ∀ i j k : ℕ, i ≤ b.nx → j ≤ b.ny → k ≤ b.nz →
      b.index i j k = (b.ny + 1) * (b.nz + 1) * i + ((b.nz + 1) * j + k) := by
    intro i j k hi hj hk
    unfold Bernstein3D.index
    rw [if_neg (by omega)]
    have hE : (b.nz + 1) * (b.ny + 1) * i + (b.nz + 1) * j + k < b.npars :=
      index3_exact_lt hi hj hk
    rw [Nat.mod_eq_of_lt (lt_of_lt_of_le hE hW)]
    ring
  have hsplit : ∑ k ∈ Finset.range b.npars, b.par k
      = ∑ i ∈ Finset.range (b.nx + 1), ∑ j ∈ Finset.range (b.ny + 1),
          ∑ k ∈ Finset.range (b.nz + 1),
            b.par ((b.ny + 1) * (b.nz + 1) * i + ((b.nz + 1) * j + k)) := by
    have h1 : b.npars = (b.nx + 1) * ((b.ny + 1) * (b.nz + 1)) := by
      unfold Bernstein3D.npars; ring
    rw [h1, sum_range_mul_split]
    refine Finset.sum_congr rfl fun i _ => ?_
    exact sum_range_mul_split (b.ny + 1) (b.nz + 1)
      (fun r => b.par ((b.ny + 1) * (b.nz + 1) * i + r))
  unfold Bernstein3D.integralFull
  calc ∑ i ∈ Finset.range (b.nx + 1), ∑ j ∈ Finset.range (b.ny + 1),
        ∑ k ∈ Finset.range (b.nz + 1),
          b.par3 i j k * ((b.xmax - b.xmin) / (b.nx + 1)) *
            ((b.ymax - b.ymin) / (b.ny + 1)) * ((b.zmax - b.zmin) / (b.nz + 1))
      = ∑ i ∈ Finset.range (b.nx + 1), ∑ j ∈ Finset.range (b.ny + 1),
          ∑ k ∈ Finset.range (b.nz + 1),
            b.par ((b.ny + 1) * (b.nz + 1) * i + ((b.nz + 1) * j + k)) *
              (((b.xmax - b.xmin) / (b.nx + 1)) * ((b.ymax - b.ymin) / (b.ny + 1)) *
                ((b.zmax - b.zmin) / (b.nz + 1))) := by
        refine Finset.sum_congr rfl fun i hi2 => Finset.sum_congr rfl fun j hj2 =>
          Finset.sum_congr rfl fun k hk2 => ?_
        unfold Bernstein3D.par3
        rw [hidx i j k (by have := Finset.mem_range.1 hi2; omega)
          (by have := Finset.mem_range.1 hj2; omega)
          (by have := Finset.mem_range.1 hk2; omega)]
        ring
    _ = (∑ i ∈ Finset.range (b.nx + 1), ∑ j ∈ Finset.range (b.ny + 1),
          ∑ k ∈ Finset.range (b.nz + 1),
            b.par ((b.ny + 1) * (b.nz + 1) * i + ((b.nz + 1) * j + k))) *
          (((b.xmax - b.xmin) / (b.nx + 1)) * ((b.ymax - b.ymin) / (b.ny + 1)) *
            ((b.zmax - b.zmin) / (b.nz + 1))) := by
        simp only [← Finset.sum_mul]
    _ = (∑ k ∈ Finset.range b.npars, b.par k) *
          ((b.xmax - b.xmin) * (b.ymax - b.ymin) * (b.zmax - b.zmin)) /
          (((b.nx + 1) * (b.ny + 1) * (b.nz + 1) : ℕ) : ℚ) := by
        rw [← hsplit]
        have h1 : ((b.nx : ℚ) + 1) ≠ 0 := by positivity
        have h2 : ((b.ny : ℚ) + 1) ≠ 0 := by positivity
        have h3 : ((b.nz : ℚ) + 1) ≠ 0 := by positivity
        push_cast
        field_simp

/-- Witness for the amended C4 at the volume-2 all-ones instance. -/
theorem integralFull_collapses_witness :
    wideB.npars ≤ W ∧
      wideB.integralFull = (∑ k ∈ Finset.range wideB.npars, wideB.par k) *
          ((wideB.xmax - wideB.xmin) * (wideB.ymax - wideB.ymin) *
            (wideB.zmax - wideB.zmin)) /
          (((wideB.nx + 1) * (wideB.ny + 1) * (wideB.nz + 1) : ℕ) : ℚ) :=
  ⟨by norm_num [wideB, Bernstein3D.npars, W],
    integralFull_collapses wideB (by norm_num [wideB, Bernstein3D.npars, W])⟩

/-- Shifting a `Bernstein3D` preserves its degrees, box and index map. -/
theorem addConst_b_npars (b : Bernstein3D) (a : ℚ) :
    (b.addConst a).npars = b.npars := rfl

/-- Shifting a `Bernstein3D` preserves its index map. -/
theorem addConst_b_index (b : Bernstein3D) (a : ℚ) (l m n : ℕ) :
    (b.addConst a).index l m n = b.index l m n := rfl

/-- The stored-coefficient view of the shift of a `Bernstein3D`. -/
theorem addConst_b_pars (b : Bernstein3D) (a : ℚ) (k : ℕ) :
    (b.addConst a).pars k =
      if k < b.npars then b.pars k + a / (b.npars : ℚ) else b.pars k := rfl

/-- On in-cube triples the shifted `Bernstein3D` reads its old coefficient
plus the redistributed constant. -/
theorem addConst_b_par3 (b : Bernstein3D) (a : ℚ) {i j k : ℕ}
    (hi : i ≤ b.nx) (hj : j ≤ b.ny) (hk : k ≤ b.nz) :
    (b.addConst a).par3 i j k = b.par3 i j k + a / (b.npars : ℚ) := by
  have h : b.index i j k < b.npars := b3_index_lt_npars b hi hj hk
  unfold Bernstein3D.par3 Bernstein3D.par
  rw [addConst_b_index, addConst_b_npars, addConst_b_pars]
  rw [if_pos h, if_pos h, if_pos h]

/-- Shifting a `Bernstein3DSym` preserves its slot count. -/
theorem addConst_s_npars (s : Bernstein3DSym) (a : ℚ) :
    (s.addConst a).npars = s.npars := rfl

/-- Shifting a `Bernstein3DSym` preserves its index map. -/
theorem addConst_s_index (s : Bernstein3DSym) (a : ℚ) (l m n : ℕ) :
    (s.addConst a).index l m n = s.index l m n := by
  rw [(s.addConst a).index_eq_core, s.index_eq_core]
  rfl

/-- The stored-coefficient view of the shift of a `Bernstein3DSym`. -/
theorem addConst_s_pars (s : Bernstein3DSym) (a : ℚ) (k : ℕ) :
    (s.addConst a).pars k =
      if k < s.npars then s.pars k + a / (((s.n + 1) ^ 3 : ℕ) : ℚ)
      else s.pars k := rfl

/-- On in-cube triples the shifted `Bernstein3DSym` reads its old
coefficient plus the redistributed constant. -/
theorem addConst_s_par3 (s : Bernstein3DSym) (a : ℚ) {i j k : ℕ}
    (hi : i ≤ s.n) (hj : j ≤ s.n) (hk : k ≤ s.n) :
    (s.addConst a).par3 i j k = s.par3 i j k + a / (((s.n + 1) ^ 3 : ℕ) : ℚ) := by
  have h : s.index i j k < s.npars := sym_index_lt_npars s hi hj hk
  unfold Bernstein3DSym.par3 Bernstein3DSym.par
  rw [addConst_s_index, addConst_s_npars, addConst_s_pars]
  rw [if_pos h, if_pos h, if_pos h]

/-- Shifting a `Bernstein3DMix` preserves its slot count. -/
theorem addConst_m_npars (t : Bernstein3DMix) (a : ℚ) :
    (t.addConst a).npars = t.npars := rfl

/-- Shifting a `Bernstein3DMix` preserves its index map. -/
theorem addConst_m_index (t : Bernstein3DMix) (a : ℚ) (l m n : ℕ) :
    (t.addConst a).index l m n = t.index l m n := by
  rw [(t.addConst a).mix_index_eq_core, t.mix_index_eq_core]
  rfl

/-- The stored-coefficient view of the shift of a `Bernstein3DMix`. -/
theorem addConst_m_pars (t : Bernstein3DMix) (a : ℚ) (k : ℕ) :
    (t.addConst a).pars k =
      if k < t.npars then t.pars k + a / (((t.n + 1) ^ 2 * (t.nz + 1) : ℕ) : ℚ)
      else t.pars k := rfl

/-- On in-cube triples the shifted `Bernstein3DMix` reads its old
coefficient plus the redistributed constant. -/
theorem addConst_m_par3 (t : Bernstein3DMix) (a : ℚ) {i j k : ℕ}
    (hi : i ≤ t.n) (hj : j ≤ t.n) (hk : k ≤ t.nz) :
    (t.addConst a).par3 i j k =
      t.par3 i j k + a / (((t.n + 1) ^ 2 * (t.nz + 1) : ℕ) : ℚ) := by
  have h : t.index i j k < t.npars := mix_index_lt_npars t hi hj hk
  unfold Bernstein3DMix.par3 Bernstein3DMix.par
  rw [addConst_m_index, addConst_m_npars, addConst_m_pars]
  rw [if_pos h, if_pos h, if_pos h]

/-- Shifting a `Bernstein3D` by the redistribution of section 4.3 moves
its value at every in-box point by the redistributed amount per basis
triple times the partition-of-unity sum, i.e. by `a` over the number of
basis triples. -/
theorem addConst_evaluate_b (b : Bernstein3D) (a x y z : ℚ)
    (hx : b.xmin ≤ x ∧ x ≤ b.xmax) (hy : b.ymin ≤ y ∧ y ≤ b.ymax)
    (hz : b.zmin ≤ z ∧ z ≤ b.zmax) :
    (b.addConst a).evaluate x y z = b.evaluate x y z + a / (b.npars : ℚ) := by
  have hg : ¬ (x < b.xmin ∨ b.xmax < x ∨ y < b.ymin ∨ b.ymax < y ∨
      z < b.zmin ∨ b.zmax < z) := by
    push_neg
    exact ⟨hx.1, hx.2, hy.1, hy.2, hz.1, hz.2⟩
  have hL : (b.addConst a).evaluate x y z
      = if x < b.xmin ∨ b.xmax < x ∨ y < b.ymin ∨ b.ymax < y ∨
          z < b.zmin ∨ b.zmax < z then 0
        else ∑ i ∈ Finset.range (b.nx + 1), ∑ j ∈ Finset.range (b.ny + 1),
          ∑ k ∈ Finset.range (b.nz + 1),
            (b.addConst a).par3 i j k * bernB b.nx i (b.tx x) *
              bernB b.ny j (b.ty y) * bernB b.nz k (b.tz z) := rfl
  rw [hL]
  unfold Bernstein3D.evaluate
  rw [if_neg hg, if_neg hg]
  calc ∑ i ∈ Finset.range (b.nx + 1), ∑ j ∈ Finset.range (b.ny + 1),
        ∑ k ∈ Finset.range (b.nz + 1),
          (b.addConst a).par3 i j k * bernB b.nx i (b.tx x) *
            bernB b.ny j (b.ty y) * bernB b.nz k (b.tz z)
      = ∑ i ∈ Finset.range (b.nx + 1), ∑ j ∈ Finset.range (b.ny + 1),
          ∑ k ∈ Finset.range (b.nz + 1),
            (b.par3 i j k * bernB b.nx i (b.tx x) * bernB b.ny j (b.ty y) *
                bernB b.nz k (b.tz z) +
              a / (b.npars : ℚ) *
                (bernB b.nx i (b.tx x) * bernB b.ny j (b.ty y) *
                  bernB b.nz k (b.tz z))) := by
        refine Finset.sum_congr rfl fun i hi2 => Finset.sum_congr rfl fun j hj2 =>
          Finset.sum_congr rfl fun k hk2 => ?_
        rw [addConst_b_par3 b a (by have := Finset.mem_range.1 hi2; omega)
          (by have := Finset.mem_range.1 hj2; omega)
          (by have := Finset.mem_range.1 hk2; omega)]
        ring
    _ = (∑ i ∈ Finset.range (b.nx + 1), ∑ j ∈ Finset.range (b.ny + 1),
          ∑ k ∈ Finset.range (b.nz + 1),
            b.par3 i j k * bernB b.nx i (b.tx x) * bernB b.ny j (b.ty y) *
              bernB b.nz k (b.tz z)) +
          a / (b.npars : ℚ) := by
        simp only [Finset.sum_add_distrib]
        congr 1
        rw [triple_sum_const_mul, sum_bernB, sum_bernB, sum_bernB]
        ring

/-- Shifting a `Bernstein3DSym` by the redistribution of section 4.3 moves
its value at every in-box point by `a` over the number of basis triples
`(N+1)^3`. -/
theorem addConst_evaluate_s (s : Bernstein3DSym) (a x y z : ℚ)
    (hx : s.xmin ≤ x ∧ x ≤ s.xmax) (hy : s.xmin ≤ y ∧ y ≤ s.xmax)
    (hz : s.xmin ≤ z ∧ z ≤ s.xmax) :
    (s.addConst a).evaluate x y z =
      s.evaluate x y z + a / (((s.n + 1) ^ 3 : ℕ) : ℚ) := by
  have hg : ¬ (x < s.xmin ∨ s.xmax < x ∨ y < s.xmin ∨ s.xmax < y ∨
      z < s.xmin ∨ s.xmax < z) := by
    push_neg
    exact ⟨hx.1, hx.2, hy.1, hy.2, hz.1, hz.2⟩
  have hL : (s.addConst a).evaluate x y z
      = if x < s.xmin ∨ s.xmax < x ∨ y < s.xmin ∨ s.xmax < y ∨
          z < s.xmin ∨ s.xmax < z then 0
        else ∑ i ∈ Finset.range (s.n + 1), ∑ j ∈ Finset.range (s.n + 1),
          ∑ k ∈ Finset.range (s.n + 1),
            (s.addConst a).par3 i j k * bernB s.n i (s.tx x) *
              bernB s.n j (s.tx y) * bernB s.n k (s.tx z) := rfl
  rw [hL]
  unfold Bernstein3DSym.evaluate
  rw [if_neg hg, if_neg hg]
  calc ∑ i ∈ Finset.range (s.n + 1), ∑ j ∈ Finset.range (s.n + 1),
        ∑ k ∈ Finset.range (s.n + 1),
          (s.addConst a).par3 i j k * bernB s.n i (s.tx x) *
            bernB s.n j (s.tx y) * bernB s.n k (s.tx z)
      = ∑ i ∈ Finset.range (s.n + 1), ∑ j ∈ Finset.range (s.n + 1),
          ∑ k ∈ Finset.range (s.n + 1),
            (s.par3 i j k * bernB s.n i (s.tx x) * bernB s.n j (s.tx y) *
                bernB s.n k (s.tx z) +
              a / (((s.n + 1) ^ 3 : ℕ) : ℚ) *
                (bernB s.n i (s.tx x) * bernB s.n j (s.tx y) *
                  bernB s.n k (s.tx z))) := by
        refine Finset.sum_congr rfl fun i hi2 => Finset.sum_congr rfl fun j hj2 =>
          Finset.sum_congr rfl fun k hk2 => ?_
        rw [addConst_s_par3 s a (by have := Finset.mem_range.1 hi2; omega)
          (by have := Finset.mem_range.1 hj2; omega)
          (by have := Finset.mem_range.1 hk2; omega)]
        ring
    _ = (∑ i ∈ Finset.range (s.n + 1), ∑ j ∈ Finset.range (s.n + 1),
          ∑ k ∈ Finset.range (s.n + 1),
            s.par3 i j k * bernB s.n i (s.tx x) * bernB s.n j (s.tx y) *
              bernB s.n k (s.tx z)) +
          a / (((s.n + 1) ^ 3 : ℕ) : ℚ) := by
        simp only [Finset.sum_add_distrib]
        congr 1
        rw [triple_sum_const_mul, sum_bernB, sum_bernB, sum_bernB]
        ring

/-- Shifting a `Bernstein3DMix` by the redistribution of section 4.3 moves
its value at every in-box point by `a` over the number of basis triples
`(N+1)^2 (Nz+1)`. -/
theorem addConst_evaluate_m (t : Bernstein3DMix) (a x y z : ℚ)
    (hx : t.xmin ≤ x ∧ x ≤ t.xmax) (hy : t.xmin ≤ y ∧ y ≤ t.xmax)
    (hz : t.zmin ≤ z ∧ z ≤ t.zmax) :
    (t.addConst a).evaluate x y z =
      t.evaluate x y z + a / (((t.n + 1) ^ 2 * (t.nz + 1) : ℕ) : ℚ) := by
  have hg : ¬ (x < t.xmin ∨ t.xmax < x ∨ y < t.xmin ∨ t.xmax < y ∨
      z < t.zmin ∨ t.zmax < z) := by
    push_neg
    exact ⟨hx.1, hx.2, hy.1, hy.2, hz.1, hz.2⟩
  have hL : (t.addConst a).evaluate x y z
      = if x < t.xmin ∨ t.xmax < x ∨ y < t.xmin ∨ t.xmax < y ∨
          z < t.zmin ∨ t.zmax < z then 0
        else ∑ i ∈ Finset.range (t.n + 1), ∑ j ∈ Finset.range (t.n + 1),
          ∑ k ∈ Finset.range (t.nz + 1),
            (t.addConst a).par3 i j k * bernB t.n i (t.tx x) *
              bernB t.n j (t.tx y) * bernB t.nz k (t.tz z) := rfl
  rw [hL]
  unfold Bernstein3DMix.evaluate
  rw [if_neg hg, if_neg hg]
  calc ∑ i ∈ Finset.range (t.n + 1), ∑ j ∈ Finset.range (t.n + 1),
        ∑ k ∈ Finset.range (t.nz + 1),
          (t.addConst a).par3 i j k * bernB t.n i (t.tx x) *
            bernB t.n j (t.tx y) * bernB t.nz k (t.tz z)
      = ∑ i ∈ Finset.range (t.n + 1), ∑ j ∈ Finset.range (t.n + 1),
          ∑ k ∈ Finset.range (t.nz + 1),
            (t.par3 i j k * bernB t.n i (t.tx x) * bernB t.n j (t.tx y) *
                bernB t.nz k (t.tz z) +
              a / (((t.n + 1) ^ 2 * (t.nz + 1) : ℕ) : ℚ) *
                (bernB t.n i (t.tx x) * bernB t.n j (t.tx y) *
                  bernB t.nz k (t.tz z))) := by
        refine Finset.sum_congr rfl fun i hi2 => Finset.sum_congr rfl fun j hj2 =>
          Finset.sum_congr rfl fun k hk2 => ?_
        rw [addConst_m_par3 t a (by have := Finset.mem_range.1 hi2; omega)
          (by have := Finset.mem_range.1 hj2; omega)
          (by have := Finset.mem_range.1 hk2; omega)]
        ring
    _ = (∑ i ∈ Finset.range (t.n + 1), ∑ j ∈ Finset.range (t.n + 1),
          ∑ k ∈ Finset.range (t.nz + 1),
            t.par3 i j k * bernB t.n i (t.tx x) * bernB t.n j (t.tx y) *
              bernB t.nz k (t.tz z)) +
          a / (((t.n + 1) ^ 2 * (t.nz + 1) : ℕ) : ℚ) := by
        simp only [Finset.sum_add_distrib]
        congr 1
        rw [triple_sum_const_mul, sum_bernB, sum_bernB, sum_bernB]
        ring

/-- C3 counterexample: on the all-zero degree-(1,1,1) unit-cube tensor,
adding the constant 8 through the redistribution of section 4.3 (one
eighth of it per stored coefficient) moves the value at (1/2,1/2,1/2) from
0 to 1, not to 0 + 8 as the claim asserts. -/
theorem addConst_shift_is_not_a :
    (cubeB.addConst 8).evaluate (1/2) (1/2) (1/2) = 1 ∧
      cubeB.evaluate (1/2) (1/2) (1/2) = 0 ∧ (1 : ℚ) ≠ 0 + 8 := by
  have h0 : cubeB.evaluate (1/2) (1/2) (1/2) = 0 := by
    unfold Bernstein3D.evaluate
    rw [if_neg (by norm_num [cubeB])]
    refine Finset.sum_eq_zero fun i _ => Finset.sum_eq_zero fun j _ =>
      Finset.sum_eq_zero fun k _ => ?_
    have hp : cubeB.par3 i j k = 0 := by
      unfold Bernstein3D.par3 Bernstein3D.par
      split_ifs <;> rfl
    rw [hp]
    ring
  have h1 := addConst_evaluate_b cubeB 8 (1/2) (1/2) (1/2)
    (by constructor <;> norm_num [cubeB]) (by constructor <;> norm_num [cubeB])
    (by constructor <;> norm_num [cubeB])
  refine ⟨?_, h0, by norm_num⟩
  rw [h1, h0]
  norm_num [cubeB, Bernstein3D.npars]

/-- C3 amended: on every tensor variant the redistribution of section 4.3
shifts the evaluated in-box value by the constant divided by the total
number of basis triples, not by the constant itself. -/
theorem addConst_shifts_value (b : Bernstein3D) (s : Bernstein3DSym)
    (t : Bernstein3DMix) (a x y z : ℚ)
    (hbx : b.xmin ≤ x ∧ x ≤ b.xmax) (hby : b.ymin ≤ y ∧ y ≤ b.ymax)
    (hbz : b.zmin ≤ z ∧ z ≤ b.zmax)
    (hsx : s.xmin ≤ x ∧ x ≤ s.xmax) (hsy : s.xmin ≤ y ∧ y ≤ s.xmax)
    (hsz : s.xmin ≤ z ∧ z ≤ s.xmax)
    (htx : t.xmin ≤ x ∧ x ≤ t.xmax) (hty : t.xmin ≤ y ∧ y ≤ t.xmax)
    (htz : t.zmin ≤ z ∧ z ≤ t.zmax) :
    (b.addConst a).evaluate x y z = b.evaluate x y z + a / (b.npars : ℚ) ∧
      (s.addConst a).evaluate x y z =
        s.evaluate x y z + a / (((s.n + 1) ^ 3 : ℕ) : ℚ) ∧
      (t.addConst a).evaluate x y z =
        t.evaluate x y z + a / (((t.n + 1) ^ 2 * (t.nz + 1) : ℕ) : ℚ) :=
  ⟨addConst_evaluate_b b a x y z hbx hby hbz,
    addConst_evaluate_s s a x y z hsx hsy hsz,
    addConst_evaluate_m t a x y z htx hty htz⟩

/-- Witness for the amended C3 at concrete instances of all three variants
and the point (1/2,1/2,1/2). -/
theorem addConst_shifts_value_witness :
    (cubeB.xmin ≤ 1/2 ∧ (1/2 : ℚ) ≤ cubeB.xmax ∧ cubeS.xmin ≤ 1/2 ∧
        (1/2 : ℚ) ≤ cubeS.xmax ∧ boxM.zmin ≤ 1/2 ∧ (1/2 : ℚ) ≤ boxM.zmax) ∧
      ((cubeB.addConst 2).evaluate (1/2) (1/2) (1/2) =
          cubeB.evaluate (1/2) (1/2) (1/2) + 2 / (cubeB.npars : ℚ) ∧
        (cubeS.addConst 2).evaluate (1/2) (1/2) (1/2) =
          cubeS.evaluate (1/2) (1/2) (1/2) + 2 / (((cubeS.n + 1) ^ 3 : ℕ) : ℚ) ∧
        (boxM.addConst 2).evaluate (1/2) (1/2) (1/2) =
          boxM.evaluate (1/2) (1/2) (1/2) +
            2 / (((boxM.n + 1) ^ 2 * (boxM.nz + 1) : ℕ) : ℚ)) :=
  ⟨by refine ⟨?_, ?_, ?_, ?_, ?_, ?_⟩ <;> norm_num [cubeB, cubeS, boxM],
    addConst_shifts_value cubeB cubeS boxM 2 (1/2) (1/2) (1/2)
      (by constructor <;> norm_num [cubeB]) (by constructor <;> norm_num [cubeB])
      (by constructor <;> norm_num [cubeB]) (by constructor <;> norm_num [cubeS])
      (by constructor <;> norm_num [cubeS]) (by constructor <;> norm_num [cubeS])
      (by constructor <;> norm_num [boxM]) (by constructor <;> norm_num [boxM])
      (by constructor <;> norm_num [boxM])⟩

end Ostap
